import Mathlib

/-!
# A shallow embedding of the `gostore` in-memory key/value store

Verification of the `tonjun/gostore` repository: an in-process key/value
store with per-key ordered lists, time-based expiry of scalar entries and
change-notification callbacks.

The embedding follows the source files:

* `item.go` — the `Item` record, the `treeItem` ordering (`Less` compares
  the `Key` string), and the `kvStore` engine (scalar map `kval`, expiry
  index `forExpiry`, the serialized worker loop, `checkExpiredItems`,
  `deleteItem`).
* the list-store / facade file — `listStore` (map `ktree` of per-list-key
  ordered trees, the `lpush`/`lget`/`ldel` handlers, `getTree`), and the
  `store` facade delegating to both engines with "Init must be called
  first" guards.

Modelling conventions:

* Go `map[string]T` is an association list with insert-or-replace; all
  reachable maps have pairwise-distinct keys.
* The google/btree trees of `treeItem`s are sorted duplicate-free
  association lists ordered by the `Key` string; `ReplaceOrInsert`
  replaces the entry whose key is neither less nor greater (i.e. equal),
  and `Delete` removes the entry with an equal key.
* Timestamps are natural numbers of nanoseconds since the epoch; the Go
  zero `time.Time` (the `IsZero` test guarding the expiry index) is
  `Option.none`.  `time.Time.Unix()` truncates to whole seconds, which
  the embedding mirrors with `unixSec`.
* Each engine's worker loop serializes request processing, so the engine
  state evolves by a sequence of atomic steps, one per processed request;
  the periodic expiry sweep is one more such step.  Asynchronous effects
  spawned by the sweep (`go s.delItem(key)` and the expire-callback
  goroutines) are modelled as pending events that are processed at an
  arbitrary later step.
-/

namespace GoStore

/-- The opaque payload (`Value interface{}` in Go); the store never
inspects it, so any type with decidable equality is faithful. -/
abbrev Value := String

/-- `Item` from `item.go`: the stored record.  `expiresAt` is the
unexported expiry timestamp; `none` models the Go zero `time.Time`
(for which `IsZero()` is true). -/
structure Item where
  id : String
  key : String
  value : Value
  expiresAt : Option Nat
deriving DecidableEq, Repr

/-- Nanoseconds per second, to model `time.Time.Unix()` truncation. -/
def nsPerSec : Nat := 1000000000

/-- `t.Unix()` for a timestamp `t` in nanoseconds: whole seconds since
the epoch (floor division, as Go stores seconds + in-range nanoseconds). -/
def unixSec (t : Nat) : Nat := t / nsPerSec

/-! ## Go map model: association list with insert-or-replace -/

/-- Go `m[k] = v`: replace the binding if present, else append. -/
def mapInsert (m : List (String × α)) (k : String) (v : α) :
    List (String × α) :=
  match m with
  | [] => [(k, v)]
  | (k', v') :: rest =>
      if k' = k then (k, v) :: rest else (k', v') :: mapInsert rest k v

/-- Go `delete(m, k)`: remove the binding for `k` (no-op if absent). -/
def mapRemove (m : List (String × α)) (k : String) : List (String × α) :=
  match m with
  | [] => []
  | (k', v') :: rest =>
      if k' = k then mapRemove rest k else (k', v') :: mapRemove rest k

/-- Go `v, ok := m[k]` as an option. -/
def mapLookup (m : List (String × α)) (k : String) : Option α :=
  match m with
  | [] => none
  | (k', v') :: rest => if k' = k then some v' else mapLookup rest k

/-! ## Go string comparison

Go's `<` on strings is byte-wise lexicographic over the UTF-8 encoding,
which coincides with codepoint-lexicographic order; `charsLt` is that
order on the character list of a Lean `String`. -/

/-- Lexicographic strict order on character lists. -/
def charsLt : List Char → List Char → Bool
  | [], [] => false
  | [], _ :: _ => true
  | _ :: _, [] => false
  | a :: as, b :: bs => if a < b then true else if b < a then false else charsLt as bs

/-- Go `a < b` on strings. -/
def strLt (a b : String) : Bool := charsLt a.data b.data

/-! ## The btree model

`treeItem` (in `item.go`) wraps a sort key and an `Item` pointer; its
`Less` compares only the `Key` strings, so `ReplaceOrInsert` replaces an
entry with an equal key and `Delete` removes the entry with an equal
key.  A `google/btree` with this `Less` is observably a duplicate-free
association list sorted strictly ascending by key, which is how it is
modelled here: insertion keeps the list sorted, and `Ascend` is plain
left-to-right traversal. -/

/-- `tree.ReplaceOrInsert(treeItem{Key := k, Value := v})`. -/
def treeUpsert (t : List (String × Item)) (k : String) (v : Item) :
    List (String × Item) :=
  match t with
  | [] => [(k, v)]
  | (k', v') :: rest =>
      if strLt k k' then (k, v) :: (k', v') :: rest
      else if strLt k' k then (k', v') :: treeUpsert rest k v
      else (k, v) :: rest

/-- `tree.Delete(treeItem{Key := k, ...})`: removes the entry whose key
is equal (neither `Less`); a no-op when the key is absent. -/
def treeDelete (t : List (String × Item)) (k : String) :
    List (String × Item) :=
  match t with
  | [] => []
  | (k', v') :: rest =>
      if k' = k then rest else (k', v') :: treeDelete rest k

/-- `tree.Ascend(visit)` collecting every visited item. -/
def treeAscend (t : List (String × Item)) : List Item := t.map (·.2)

/-- Well-formedness of the btree model: entries sorted strictly
ascending by key (hence keys are pairwise distinct). -/
def TreeSorted (t : List (String × Item)) : Prop :=
  t.Pairwise (fun a b => strLt a.1 b.1 = true)

instance (t : List (String × Item)) : Decidable (TreeSorted t) := by
  unfold TreeSorted
  infer_instance

/-! ## The scalar engine (`kvStore`, `item.go`) -/

/-- The state owned by the `kvStore` worker: the scalar map `kval` and
the expiry index `forExpiry` (a btree of `treeItem`s keyed by the
scalar entry's `Key`, holding snapshot copies of the items). -/
structure KVState where
  kval : List (String × Item)
  forExpiry : List (String × Item)
deriving DecidableEq, Repr

/-- `newKVStore()`: empty map, empty expiry tree. -/
def newKVStore : KVState := ⟨[], []⟩

/-- The `set` handler of the worker loop (`item.go` lines 70-84): store
the item under `r.item.Key`; when its `expiresAt` is non-zero, also
`ReplaceOrInsert` a `treeItem{Key: item.Key, Value: &item}` into the
`forExpiry` tree.  A put whose item carries no expiry does not touch
the tree, so an older expiring entry for the same key stays behind. -/
def setStep (s : KVState) (it : Item) : KVState :=
  { kval := mapInsert s.kval it.key it,
    forExpiry :=
      if it.expiresAt.isSome then treeUpsert s.forExpiry it.key it
      else s.forExpiry }

/-- `kvStore.deleteItem` (`item.go` lines 195-206): when the key's
current map entry exists and has an expiry set, delete the `forExpiry`
entry keyed by that entry's `Key` field; then delete the map entry. -/
def deleteItem (s : KVState) (k : String) : KVState :=
  match mapLookup s.kval k with
  | some val =>
      { kval := mapRemove s.kval k,
        forExpiry :=
          if val.expiresAt.isSome then treeDelete s.forExpiry val.key
          else s.forExpiry }
  | none => { kval := mapRemove s.kval k, forExpiry := s.forExpiry }

/-- The expiry test inside `checkExpiredItems` (`item.go` lines
177-179): `d := now.Unix() - expiresAt.Unix(); d >= 0` — whole-second
granularity.  (The Go zero time has a negative `Unix()`, so a zero
`expiresAt` — which the `set` handler never lets into the tree — would
always test as expired.) -/
def expiredTest (now : Nat) (it : Item) : Bool :=
  match it.expiresAt with
  | some e => decide (0 ≤ (unixSec now : Int) - (unixSec e : Int))
  | none => true

/-- The claim's real-time reading of the expiry test, for comparison:
`now - expiresAt >= 0` at full (nanosecond) precision. -/
def expiredRealtime (now : Nat) (it : Item) : Bool :=
  match it.expiresAt with
  | some e => decide (e ≤ now)
  | none => true

/-- `checkExpiredItems` on a bare tree, observable effect 1: the item
snapshots for which an expire-callback goroutine is spawned, in
ascending key order. -/
def sweepFiredT (t : List (String × Item)) (now : Nat) : List Item :=
  (t.filter (fun e => expiredTest now e.2)).map (·.2)

/-- `checkExpiredItems` on a bare tree, observable effect 2: the keys
(`key := i.Key`) for which an asynchronous `go s.delItem(key)` is
issued. -/
def sweepPendingT (t : List (String × Item)) (now : Nat) : List String :=
  (t.filter (fun e => expiredTest now e.2)).map (·.2.key)

/-- `kvStore.checkExpiredItems` (`item.go` lines 173-193), effect 1:
expire-callback invocations spawned by one sweep. -/
def sweepFired (s : KVState) (now : Nat) : List Item :=
  sweepFiredT s.forExpiry now

/-- `kvStore.checkExpiredItems`, effect 2: the asynchronous `delItem`
requests issued by one sweep. -/
def sweepPending (s : KVState) (now : Nat) : List String :=
  sweepPendingT s.forExpiry now

/-- `kvStore.getItem` (`item.go` lines 136-154): the worker answers
with the current map entry (`found`) or signals `notFound`. -/
def getItem (s : KVState) (k : String) : Option Item := mapLookup s.kval k

/-- `kvStore.put` (`item.go` lines 111-134) as seen by the caller:
validation errors return synchronously; on success the serialized
worker processes the `setReq`, whose item has `expiresAt = now + d`
stamped exactly when `d > 0`.  Durations and `now` are in nanoseconds
(`time.Duration` is an integer nanosecond count). -/
def put (s : KVState) (id key : String) (v : Value) (d : Int) (now : Nat) :
    Except String KVState :=
  if key.length = 0 ∨ id.length = 0 then Except.error "invalid item"
  else Except.ok (setStep s
    { id := id, key := key, value := v,
      expiresAt := if 0 < d then some (now + d.toNat) else none })

/-- `kvStore.delItem` (`item.go` lines 156-171) as seen by the caller:
an empty key is rejected with an error before anything is sent to the
worker; otherwise the worker runs `deleteItem` and the call returns
without error. -/
def delItem (s : KVState) (k : String) : Except String KVState :=
  if k.length = 0 then Except.error "Invalid key"
  else Except.ok (deleteItem s k)

/-- Scalar-engine states reachable by the serialized worker processing
any sequence of `set` and `del` requests.  The sweep itself mutates no
engine state (its deletes arrive later as ordinary `del` requests). -/
inductive KVReach : KVState → Prop
  | newStore : KVReach newKVStore
  | set (s : KVState) (it : Item) (h : KVReach s) : KVReach (setStep s it)
  | del (s : KVState) (k : String) (h : KVReach s) : KVReach (deleteItem s k)

/-- Structural well-formedness of a scalar-engine state: the expiry
tree is sorted and each tree entry is keyed by its item's `Key` field;
each map binding's item carries that binding's key; and every current
map entry with an expiry set is also the tree's entry for its key (one
direction of the spec's sync invariant — the converse fails, see the
counterexamples). -/
def KVWF (s : KVState) : Prop :=
  TreeSorted s.forExpiry ∧
  (∀ e ∈ s.forExpiry, e.2.key = e.1) ∧
  (∀ k it, mapLookup s.kval k = some it →
    it.key = k ∧
      (it.expiresAt.isSome = true → mapLookup s.forExpiry k = some it))

/-- The scalar engine together with its in-flight asynchronous work:
`pending` are the keys whose `go s.delItem(key)` goroutine has not yet
been served by the worker loop, `fired` the expire-callback invocations
so far (each element one invocation, carrying the item snapshot). -/
structure KVSys where
  kv : KVState
  pending : List String
  fired : List Item
deriving DecidableEq, Repr

/-- One unit of work processed by the `kvStore` worker loop: a `set`
request, a pending asynchronous delete finally being served, or a
ticker-driven `checkExpiredItems` sweep at time `now`. -/
inductive KVEvent
  | set (it : Item)
  | procDel (k : String)
  | tick (now : Nat)
deriving DecidableEq, Repr

/-- The serialized worker loop of `kvStore.init` (`item.go` lines
68-101), one step: `set` stores; `procDel k` serves one pending delete
request through `deleteItem`; `tick` runs `checkExpiredItems`, which
spawns callback goroutines (`fired`) and async deletes (`pending`) but
mutates nothing itself. -/
def sysStep (s : KVSys) (e : KVEvent) : KVSys :=
  match e with
  | .set it => { s with kv := setStep s.kv it }
  | .procDel k =>
      if k ∈ s.pending then
        { kv := deleteItem s.kv k, pending := s.pending.erase k,
          fired := s.fired }
      else s
  | .tick now =>
      { kv := s.kv,
        pending := s.pending ++ sweepPending s.kv now,
        fired := s.fired ++ sweepFired s.kv now }

/-- Run the worker loop over a sequence of events. -/
def sysRun (s : KVSys) (evts : List KVEvent) : KVSys :=
  evts.foldl sysStep s

/-- The just-initialized engine with no in-flight work. -/
def sysInit : KVSys := ⟨newKVStore, [], []⟩

/-- How many expire-callback invocations in `l` carried key `k`. -/
def countKey (l : List Item) (k : String) : Nat :=
  (l.filter (fun it => it.key = k)).length

/-! ## The list engine (`listStore`) -/

/-- The state owned by the `listStore` worker: `ktree`, one btree per
list key, each keyed by item `ID`. -/
structure LSState where
  ktree : List (String × List (String × Item))
deriving DecidableEq, Repr

/-- `newListStore()`: no lists. -/
def newListStore : LSState := ⟨[]⟩

/-- `listStore.getTree` (list-store file, lines 139-148): fetch the
tree for a list key, creating and registering an empty one when the key
is absent. -/
def getTree (s : LSState) (k : String) :
    LSState × List (String × Item) :=
  match mapLookup s.ktree k with
  | some t => (s, t)
  | none => (⟨mapInsert s.ktree k []⟩, [])

/-- A change notification: one invocation of the registered
`onListDidChange` callback, with the list key and the full list. -/
abbrev ChangeNote := String × List Item

/-- The `lpush` handler of the `listStore` worker loop (lines 39-44):
`ReplaceOrInsert` a `treeItem{Key: item.ID, Value: &item}` into
`getTree(key)`.  The handler body contains no call to
`s.listChangeCb`, so the emitted notification list is empty. -/
def lpushStep (s : LSState) (k : String) (it : Item) :
    LSState × List ChangeNote :=
  match mapLookup s.ktree k with
  | some t => (⟨mapInsert s.ktree k (treeUpsert t it.id it)⟩, [])
  | none => (⟨mapInsert (mapInsert s.ktree k []) k (treeUpsert [] it.id it)⟩, [])

/-- The `ldel` handler (lines 58-64): `Delete` the entry keyed by
`item.ID` from `getTree(key)` — creating the tree as a side effect when
the list key was never seen, because the handler goes through
`getTree`.  The handler body contains no call to `s.listChangeCb`. -/
def ldelStep (s : LSState) (k : String) (it : Item) :
    LSState × List ChangeNote :=
  match mapLookup s.ktree k with
  | some t => (⟨mapInsert s.ktree k (treeDelete t it.id)⟩, [])
  | none => (⟨mapInsert (mapInsert s.ktree k []) k (treeDelete [] it.id)⟩, [])

/-- The `lget` handler (lines 46-56): `notFound` when the list key is
absent from `ktree`; otherwise ascend the list's tree collecting the
items in order. -/
def lgetStep (s : LSState) (k : String) : List Item × Bool :=
  match mapLookup s.ktree k with
  | none => ([], false)
  | some t => (treeAscend t, true)

/-- A mutating request processed by the `listStore` worker. -/
inductive LEvent
  | push (k : String) (it : Item)
  | del (k : String) (it : Item)
deriving DecidableEq, Repr

/-- The list key a request addresses. -/
def LEvent.lkey : LEvent → String
  | .push k _ => k
  | .del k _ => k

/-- Whether the request is a push. -/
def LEvent.isPush : LEvent → Bool
  | .push _ _ => true
  | .del _ _ => false

/-- One step of the `listStore` worker loop (state part). -/
def lsApply (s : LSState) (e : LEvent) : LSState :=
  match e with
  | .push k it => (lpushStep s k it).1
  | .del k it => (ldelStep s k it).1

/-- The list-engine state after the worker has processed `evts`,
starting from a fresh `listStore`. -/
def lsRun (evts : List LEvent) : LSState :=
  evts.foldl lsApply newListStore

/-- Well-formedness of a list-engine state: every registered tree is
sorted and each entry is keyed by its item's `ID` field. -/
def LSWF (s : LSState) : Prop :=
  ∀ k t, mapLookup s.ktree k = some t →
    TreeSorted t ∧ (∀ e ∈ t, e.2.id = e.1)

/-! ## The store facade -/

/-- Facade lifecycle: before `Init`, after `Init`, after `Close`.
`Close` closes the kv engine's `set` channel (its worker loop then
returns) and signals the list engine's `close` channel (its loop
returns too). -/
inductive Lifecycle
  | uninit
  | running
  | closed
deriving DecidableEq, Repr

/-- Synchronous outcome of one facade call, as the caller observes it:
success, the "Init must be called first" error, a validation error, a
channel-send timeout error, or a runtime panic (a send on a closed
channel panics in Go). -/
inductive Outcome
  | ok
  | errNotInit
  | errInvalid
  | errTimeout
  | panicked
deriving DecidableEq, Repr

/-- One facade operation with its arguments (the operations other than
`Init`/`Close`/callback registration). -/
inductive StoreOp
  | put (id key : String) (v : Value) (d : Int)
  | get (k : String)
  | del (k : String)
  | listPush (k id : String) (v : Value)
  | listDel (k id : String) (v : Value)
  | listGet (k : String)
deriving DecidableEq, Repr

/-- The whole facade state. -/
structure StoreState where
  life : Lifecycle
  kv : KVState
  ls : LSState
deriving DecidableEq, Repr

/-- One facade call, translated from `store.Put/Get/Del/ListPush/
ListDel/ListGet` plus the engine-level validations and the Go channel
semantics of each request:

* before `Init` both engine pointers are nil, so every operation
  returns the "Init must be called first" error without touching any
  state;
* while running, validations reject empty keys/ids and the serialized
  worker applies the request;
* after `Close`, validations still run first (they precede the channel
  send).  A valid `Put` then sends on the closed `set` channel, which
  panics, deterministically: a send on a closed channel can never
  rendezvous.  The list operations deterministically time out: `Close`
  performs a blocking send on the list worker's `close` channel, so by
  the time `Close` returns that worker has committed to exiting and
  never serves another request.  A `Get` or `Del`, however, races the
  kv worker's exit — `close(s.set)` returns without waiting for the
  worker to observe the closure — so the request is either served
  normally by the still-looping worker (chosen by its `select`; a
  served `Del` mutates `kval` and reports success) or never picked up,
  with the 3-second guard returning a timeout error.  The scheduler's
  choice in that race is the parameter `kvServes`. -/
def applyOp (st : StoreState) (op : StoreOp) (now : Nat)
    (kvServes : Bool) : Outcome × StoreState :=
  match op with
  | .put id key v d =>
      match st.life with
      | .uninit => (.errNotInit, st)
      | .running =>
          if key.length = 0 ∨ id.length = 0 then (.errInvalid, st)
          else
            (.ok, { st with kv := setStep st.kv ⟨id, key, v, if 0 < d then some (now + d.toNat) else none⟩ })
      | .closed =>
          if key.length = 0 ∨ id.length = 0 then (.errInvalid, st)
          else (.panicked, st)
  | .get _ =>
      match st.life with
      | .uninit => (.errNotInit, st)
      | .running => (.ok, st)
      | .closed => if kvServes then (.ok, st) else (.errTimeout, st)
  | .del k =>
      match st.life with
      | .uninit => (.errNotInit, st)
      | .running =>
          if k.length = 0 then (.errInvalid, st)
          else (.ok, { st with kv := deleteItem st.kv k })
      | .closed =>
          if k.length = 0 then (.errInvalid, st)
          else if kvServes then (.ok, { st with kv := deleteItem st.kv k })
          else (.errTimeout, st)
  | .listPush k id v =>
      match st.life with
      | .uninit => (.errNotInit, st)
      | .running =>
          if k.length = 0 ∨ id.length = 0 then (.errInvalid, st)
          else (.ok, { st with
            ls := (lpushStep st.ls k ⟨id, "", v, none⟩).1 })
      | .closed =>
          if k.length = 0 ∨ id.length = 0 then (.errInvalid, st)
          else (.errTimeout, st)
  | .listDel k id v =>
      match st.life with
      | .uninit => (.errNotInit, st)
      | .running =>
          if k.length = 0 ∨ id.length = 0 then (.errInvalid, st)
          else (.ok, { st with
            ls := (ldelStep st.ls k ⟨id, "", v, none⟩).1 })
      | .closed =>
          if k.length = 0 ∨ id.length = 0 then (.errInvalid, st)
          else (.errTimeout, st)
  | .listGet _ =>
      match st.life with
      | .uninit => (.errNotInit, st)
      | .running => (.ok, st)
      | .closed => (.errTimeout, st)

/-! ## Concrete states and items used by counterexamples and witnesses -/

/-- A list item as the repo's tests build them: `Item{ID: "a", Value:
"a data"}` (the `Key` field is unused by the list engine). -/
def itemA : Item := ⟨"a", "", "a data", none⟩

/-- A second list item, id `"b"`. -/
def itemB : Item := ⟨"b", "", "b data", none⟩

/-- An item that replaces `itemA`'s id with different content. -/
def itemA2 : Item := ⟨"a", "", "new data", none⟩

/-- A scalar item for key `"k"` expiring at second 2. -/
def itemExp : Item := ⟨"1", "k", "v", some (2 * nsPerSec)⟩

/-- A scalar item for key `"k"` expiring at second 10. -/
def itemOld : Item := ⟨"1", "k", "v1", some (10 * nsPerSec)⟩

/-- A replacement for key `"k"` with no expiry (a put with `ttl <= 0`). -/
def itemNoExp : Item := ⟨"2", "k", "v2", none⟩

/-- A scalar item whose expiry (10.95 s) is sub-second: inside Unix
second 10. -/
def itemSubSec : Item := ⟨"1", "k", "v", some (10 * nsPerSec + 950000000)⟩

/-- 10.9 s: earlier than `itemSubSec`'s expiry, same Unix second. -/
def nowSubSec : Nat := 10 * nsPerSec + 900000000

/-- A facade state that was initialized and then closed. -/
def closedStore : StoreState := ⟨Lifecycle.closed, newKVStore, newListStore⟩

/-- A facade state before `Init`. -/
def uninitStore : StoreState := ⟨Lifecycle.uninit, newKVStore, newListStore⟩

/-! ## Order lemmas for the Go string comparison -/

theorem charsLt_irrefl (l : List Char) : charsLt l l = false := by
  induction l with
  | nil => rfl
  | cons a as ih => simp [charsLt, lt_irrefl, ih]

theorem charsLt_eq_of_not (a b : List Char) (h1 : charsLt a b = false)
    (h2 : charsLt b a = false) : a = b := by
  induction a generalizing b with
  | nil => cases b with
    | nil => rfl
    | cons x xs => simp [charsLt] at h1
  | cons x xs ih =>
    cases b with
    | nil => simp [charsLt] at h2
    | cons y ys =>
      simp only [charsLt] at h1 h2
      rcases lt_trichotomy x y with h | h | h
      · simp [h] at h1
      · subst h
        simp only [lt_irrefl, if_false] at h1 h2
        exact congrArg₂ List.cons rfl (ih ys h1 h2)
      · simp [h] at h2

theorem charsLt_trans (a b c : List Char) (h1 : charsLt a b = true)
    (h2 : charsLt b c = true) : charsLt a c = true := by
  induction a generalizing b c with
  | nil =>
    cases c with
    | nil =>
      cases b with
      | nil => simp [charsLt] at h1
      | cons y ys => simp [charsLt] at h2
    | cons z zs => simp [charsLt]
  | cons x xs ih =>
    cases b with
    | nil => simp [charsLt] at h1
    | cons y ys =>
      cases c with
      | nil => simp [charsLt] at h2
      | cons z zs =>
        simp only [charsLt] at h1 h2 ⊢
        rcases lt_trichotomy x y with hxy | hxy | hxy
        · rcases lt_trichotomy y z with hyz | hyz | hyz
          · simp [lt_trans hxy hyz]
          · subst hyz; simp [hxy]
          · simp [hyz, asymm hyz] at h2
        · subst hxy
          rcases lt_trichotomy x z with hxz | hxz | hxz
          · simp [hxz]
          · subst hxz
            simp only [lt_irrefl, if_false] at h1 h2 ⊢
            exact ih ys zs h1 h2
          · simp [hxz, asymm hxz] at h2
        · simp [hxy, asymm hxy] at h1

theorem charsLt_asymm (a b : List Char) (h : charsLt a b = true) :
    charsLt b a = false := by
  by_contra hc
  have hba : charsLt b a = true := by
    cases hh : charsLt b a with
    | false => exact absurd hh hc
    | true => rfl
  have hf := charsLt_trans a b a h hba
  rw [charsLt_irrefl] at hf
  exact Bool.noConfusion hf

theorem strLt_irrefl (a : String) : strLt a a = false :=
  charsLt_irrefl a.data

theorem strLt_eq_of_not (a b : String) (h1 : strLt a b = false)
    (h2 : strLt b a = false) : a = b := by
  cases a; cases b
  exact congrArg String.mk (charsLt_eq_of_not _ _ h1 h2)

theorem strLt_trans (a b c : String) (h1 : strLt a b = true)
    (h2 : strLt b c = true) : strLt a c = true :=
  charsLt_trans a.data b.data c.data h1 h2

theorem strLt_asymm (a b : String) (h : strLt a b = true) :
    strLt b a = false :=
  charsLt_asymm a.data b.data h

theorem strLt_ne (a b : String) (h : strLt a b = true) : a ≠ b := by
  intro he
  subst he
  rw [strLt_irrefl] at h
  exact Bool.noConfusion h

/-! ## Map lemmas -/

theorem mapLookup_insert_self (m : List (String × α)) (k : String) (v : α) :
    mapLookup (mapInsert m k v) k = some v := by
  induction m with
  | nil => simp [mapInsert, mapLookup]
  | cons p rest ih =>
    obtain ⟨k', v'⟩ := p
    by_cases h : k' = k
    · simp [mapInsert, mapLookup, h]
    · simp [mapInsert, mapLookup, h, ih]

theorem mapLookup_insert_other (m : List (String × α)) (k k' : String) (v : α)
    (h : k' ≠ k) : mapLookup (mapInsert m k v) k' = mapLookup m k' := by
  induction m with
  | nil => simp [mapInsert, mapLookup, Ne.symm h]
  | cons p rest ih =>
    obtain ⟨k₀, v₀⟩ := p
    by_cases h0 : k₀ = k
    · subst h0
      simp [mapInsert, mapLookup, Ne.symm h]
    · simp [mapInsert, mapLookup, h0, ih]

theorem mapInsert_mem (m : List (String × α)) (k : String) (v : α) :
    ∀ e ∈ mapInsert m k v, e = (k, v) ∨ e ∈ m := by
  induction m with
  | nil => simp [mapInsert]
  | cons p rest ih =>
    obtain ⟨k₀, v₀⟩ := p
    by_cases h0 : k₀ = k
    · intro e he
      simp only [mapInsert, h0, if_true, if_pos rfl] at he
      rcases List.mem_cons.mp he with h | h
      · exact Or.inl h
      · exact Or.inr (List.mem_cons.mpr (Or.inr h))
    · intro e he
      simp only [mapInsert, h0, if_false, if_neg h0] at he
      rcases List.mem_cons.mp he with h | h
      · exact Or.inr (List.mem_cons.mpr (Or.inl h))
      · rcases ih e h with h' | h'
        · exact Or.inl h'
        · exact Or.inr (List.mem_cons.mpr (Or.inr h'))

theorem mapLookup_none_iff (m : List (String × α)) (k : String) :
    mapLookup m k = none ↔ ∀ e ∈ m, e.1 ≠ k := by
  induction m with
  | nil => simp [mapLookup]
  | cons p rest ih =>
    obtain ⟨k₀, v₀⟩ := p
    by_cases h0 : k₀ = k
    · simp [mapLookup, h0]
    · simp [mapLookup, h0, ih]

theorem mapRemove_lookup_self (m : List (String × α)) (k : String) :
    mapLookup (mapRemove m k) k = none := by
  induction m with
  | nil => rfl
  | cons p rest ih =>
    obtain ⟨k₀, v₀⟩ := p
    by_cases h0 : k₀ = k
    · simpa [mapRemove, h0] using ih
    · simpa [mapRemove, mapLookup, h0] using ih

theorem mapRemove_lookup_other (m : List (String × α)) (k k' : String)
    (h : k' ≠ k) : mapLookup (mapRemove m k) k' = mapLookup m k' := by
  induction m with
  | nil => rfl
  | cons p rest ih =>
    obtain ⟨k₀, v₀⟩ := p
    by_cases h0 : k₀ = k
    · subst h0
      simp [mapRemove, mapLookup, Ne.symm h, ih]
    · simp [mapRemove, mapLookup, h0, ih]

theorem mapRemove_absent (m : List (String × α)) (k : String)
    (h : mapLookup m k = none) : mapRemove m k = m := by
  induction m with
  | nil => rfl
  | cons p rest ih =>
    obtain ⟨k₀, v₀⟩ := p
    by_cases h0 : k₀ = k
    · simp [mapLookup, h0] at h
    · simp only [mapLookup, h0, if_false, if_neg h0] at h ⊢
      simp [mapRemove, h0, ih h]

theorem mapLookup_mem (m : List (String × α)) (k : String) (v : α)
    (h : mapLookup m k = some v) : (k, v) ∈ m := by
  induction m with
  | nil => simp [mapLookup] at h
  | cons p rest ih =>
    obtain ⟨k₀, v₀⟩ := p
    by_cases h0 : k₀ = k
    · subst h0
      have hv : v₀ = v := by simpa [mapLookup] using h
      subst hv
      exact List.mem_cons_self _ _
    · simp only [mapLookup, h0, if_false, if_neg h0] at h
      exact List.mem_cons.mpr (Or.inr (ih h))

/-! ## Tree lemmas -/

theorem mem_mapLookup_sorted (t : List (String × Item)) (h : TreeSorted t)
    (e : String × Item) (he : e ∈ t) : mapLookup t e.1 = some e.2 := by
  induction t with
  | nil => simp at he
  | cons p rest ih =>
    rw [TreeSorted, List.pairwise_cons] at h
    obtain ⟨hall, hrest⟩ := h
    rcases List.mem_cons.mp he with h1 | h1
    · subst h1
      simp [mapLookup]
    · have hne : p.1 ≠ e.1 := strLt_ne _ _ (hall e h1)
      obtain ⟨k₀, v₀⟩ := p
      simp only [mapLookup, if_neg hne]
      exact ih hrest h1

theorem treeUpsert_mem (t : List (String × Item)) (k : String) (v : Item) :
    ∀ e ∈ treeUpsert t k v, e = (k, v) ∨ e ∈ t := by
  induction t with
  | nil => simp [treeUpsert]
  | cons p rest ih =>
    obtain ⟨k', v'⟩ := p
    intro e he
    cases h1 : strLt k k' with
    | true =>
      simp only [treeUpsert, h1, if_true, List.mem_cons] at he
      rcases he with h | h | h
      · exact Or.inl h
      · exact Or.inr (List.mem_cons.mpr (Or.inl h))
      · exact Or.inr (List.mem_cons.mpr (Or.inr h))
    | false =>
      cases h2 : strLt k' k with
      | true =>
        simp only [treeUpsert, h1, h2, Bool.false_eq_true, if_false, if_true,
          List.mem_cons] at he
        rcases he with h | h
        · exact Or.inr (List.mem_cons.mpr (Or.inl h))
        · rcases ih e h with h' | h'
          · exact Or.inl h'
          · exact Or.inr (List.mem_cons.mpr (Or.inr h'))
      | false =>
        simp only [treeUpsert, h1, h2, Bool.false_eq_true, if_false,
          List.mem_cons] at he
        rcases he with h | h
        · exact Or.inl h
        · exact Or.inr (List.mem_cons.mpr (Or.inr h))

theorem treeUpsert_sorted (t : List (String × Item)) (k : String) (v : Item)
    (h : TreeSorted t) : TreeSorted (treeUpsert t k v) := by
  induction t with
  | nil => simp [treeUpsert, TreeSorted]
  | cons p rest ih =>
    obtain ⟨k', v'⟩ := p
    rw [TreeSorted, List.pairwise_cons] at h
    obtain ⟨hall, hrest⟩ := h
    cases h1 : strLt k k' with
    | true =>
      simp only [treeUpsert, h1, if_true]
      rw [TreeSorted, List.pairwise_cons]
      refine ⟨?_, List.pairwise_cons.mpr ⟨hall, hrest⟩⟩
      intro e he
      rcases List.mem_cons.mp he with h | h
      · subst h
        exact h1
      · exact strLt_trans k k' e.1 h1 (hall e h)
    | false =>
      cases h2 : strLt k' k with
      | true =>
        simp only [treeUpsert, h1, h2, Bool.false_eq_true, if_false, if_true]
        rw [TreeSorted, List.pairwise_cons]
        refine ⟨?_, ih hrest⟩
        intro e he
        rcases treeUpsert_mem rest k v e he with h | h
        · subst h
          exact h2
        · exact hall e h
      | false =>
        have hk : k = k' := strLt_eq_of_not _ _ h1 h2
        simp only [treeUpsert, h1, h2, Bool.false_eq_true, if_false]
        rw [TreeSorted, List.pairwise_cons]
        refine ⟨?_, hrest⟩
        intro e he
        rw [hk]
        exact hall e he

theorem treeLookup_upsert_self (t : List (String × Item)) (k : String)
    (v : Item) : mapLookup (treeUpsert t k v) k = some v := by
  induction t with
  | nil => simp [treeUpsert, mapLookup]
  | cons p rest ih =>
    obtain ⟨k', v'⟩ := p
    cases h1 : strLt k k' with
    | true => simp [treeUpsert, h1, mapLookup]
    | false =>
      cases h2 : strLt k' k with
      | true =>
        have hne : k' ≠ k := strLt_ne _ _ h2
        simp [treeUpsert, h1, h2, mapLookup, hne, ih]
      | false => simp [treeUpsert, h1, h2, mapLookup]

theorem treeLookup_upsert_other (t : List (String × Item)) (k k' : String)
    (v : Item) (h : k' ≠ k) :
    mapLookup (treeUpsert t k v) k' = mapLookup t k' := by
  induction t with
  | nil => simp [treeUpsert, mapLookup, Ne.symm h]
  | cons p rest ih =>
    obtain ⟨k₀, v₀⟩ := p
    cases h1 : strLt k k₀ with
    | true => simp [treeUpsert, h1, mapLookup, Ne.symm h]
    | false =>
      cases h2 : strLt k₀ k with
      | true => simp [treeUpsert, h1, h2, mapLookup, ih]
      | false =>
        have hk : k = k₀ := strLt_eq_of_not _ _ h1 h2
        subst hk
        simp [treeUpsert, h1, h2, mapLookup, Ne.symm h]

theorem treeDelete_sublist (t : List (String × Item)) (k : String) :
    List.Sublist (treeDelete t k) t := by
  induction t with
  | nil => simp [treeDelete]
  | cons p rest ih =>
    obtain ⟨k', v'⟩ := p
    by_cases h : k' = k
    · simp only [treeDelete, h, if_pos rfl]
      exact List.sublist_cons_self _ _
    · simp only [treeDelete, h, if_false, if_neg h]
      exact List.Sublist.cons₂ _ ih

theorem treeDelete_sorted (t : List (String × Item)) (k : String)
    (h : TreeSorted t) : TreeSorted (treeDelete t k) :=
  List.Pairwise.sublist (treeDelete_sublist t k) h

theorem treeDelete_lookup_self (t : List (String × Item)) (k : String)
    (h : TreeSorted t) : mapLookup (treeDelete t k) k = none := by
  induction t with
  | nil => rfl
  | cons p rest ih =>
    obtain ⟨k', v'⟩ := p
    rw [TreeSorted, List.pairwise_cons] at h
    obtain ⟨hall, hrest⟩ := h
    by_cases h0 : k' = k
    · subst h0
      simp only [treeDelete, if_pos rfl]
      rw [mapLookup_none_iff]
      intro e he hek
      exact strLt_ne _ _ (hall e he) hek.symm
    · simp [treeDelete, h0, mapLookup, ih hrest]

theorem treeDelete_lookup_other (t : List (String × Item)) (k k' : String)
    (h : k' ≠ k) : mapLookup (treeDelete t k) k' = mapLookup t k' := by
  induction t with
  | nil => rfl
  | cons p rest ih =>
    obtain ⟨k₀, v₀⟩ := p
    by_cases h0 : k₀ = k
    · subst h0
      simp [treeDelete, mapLookup, Ne.symm h]
    · simp [treeDelete, mapLookup, h0, ih]

theorem treeDelete_absent (t : List (String × Item)) (k : String)
    (h : mapLookup t k = none) : treeDelete t k = t := by
  induction t with
  | nil => rfl
  | cons p rest ih =>
    obtain ⟨k₀, v₀⟩ := p
    by_cases h0 : k₀ = k
    · simp [mapLookup, h0] at h
    · simp only [mapLookup, h0, if_false, if_neg h0] at h
      simp [treeDelete, h0, ih h]

theorem treeUpsert_keys_of_mem (t : List (String × Item)) (k : String)
    (v : Item) (h : TreeSorted t) (hm : mapLookup t k ≠ none) :
    (treeUpsert t k v).map Prod.fst = t.map Prod.fst := by
  induction t with
  | nil => simp [mapLookup] at hm
  | cons p rest ih =>
    obtain ⟨k', v'⟩ := p
    rw [TreeSorted, List.pairwise_cons] at h
    obtain ⟨hall, hrest⟩ := h
    cases h1 : strLt k k' with
    | true =>
      exfalso
      by_cases he : k' = k
      · subst he
        rw [strLt_irrefl] at h1
        exact Bool.noConfusion h1
      · simp only [mapLookup, he, if_false, if_neg he] at hm
        obtain ⟨w, hw⟩ := Option.ne_none_iff_exists'.mp hm
        have hmem := mapLookup_mem rest k w hw
        have h2 := hall _ hmem
        have h3 := strLt_trans k k' k h1 h2
        rw [strLt_irrefl] at h3
        exact Bool.noConfusion h3
    | false =>
      cases h2 : strLt k' k with
      | true =>
        have hne : k' ≠ k := strLt_ne _ _ h2
        simp only [mapLookup, hne, if_false, if_neg hne] at hm
        simp [treeUpsert, h1, h2, ih hrest hm]
      | false =>
        have hk : k = k' := strLt_eq_of_not _ _ h1 h2
        subst hk
        simp [treeUpsert, strLt_irrefl]

theorem tree_mem_unique (t : List (String × Item)) (hs : TreeSorted t)
    (e e' : String × Item) (he : e ∈ t) (he' : e' ∈ t) (hk : e.1 = e'.1) :
    e = e' := by
  have h1 := mem_mapLookup_sorted t hs e he
  have h2 := mem_mapLookup_sorted t hs e' he'
  rw [hk, h2] at h1
  exact Prod.ext_iff.mpr ⟨hk, (Option.some.injEq _ _).mp h1.symm⟩

/-! ## Scalar-engine invariants -/

theorem kvWF_new : KVWF newKVStore := by
  refine ⟨?_, ?_, ?_⟩ <;> simp [newKVStore, TreeSorted, mapLookup, KVWF]

theorem kvWF_set (s : KVState) (it : Item) (h : KVWF s) :
    KVWF (setStep s it) := by
  obtain ⟨hsort, hkeys, hmap⟩ := h
  refine ⟨?_, ?_, ?_⟩
  · simp only [setStep]
    cases hx : it.expiresAt.isSome with
    | true => simpa [hx] using treeUpsert_sorted _ _ _ hsort
    | false => simpa [hx] using hsort
  · simp only [setStep]
    cases hx : it.expiresAt.isSome with
    | false => simpa [hx] using hkeys
    | true =>
      simp only [hx, if_true]
      intro e he
      rcases treeUpsert_mem _ _ _ e he with h | h
      · subst h
        rfl
      · exact hkeys e h
  · intro k it' hl
    simp only [setStep] at hl ⊢
    by_cases hk : k = it.key
    · subst hk
      rw [mapLookup_insert_self] at hl
      obtain rfl : it = it' := by injection hl
      refine ⟨rfl, fun hsome => ?_⟩
      simp only [hsome, if_true]
      exact treeLookup_upsert_self _ _ _
    · rw [mapLookup_insert_other _ _ _ _ hk] at hl
      obtain ⟨hkey, hsync⟩ := hmap k it' hl
      refine ⟨hkey, fun hsome => ?_⟩
      cases hx : it.expiresAt.isSome with
      | false => simpa [hx] using hsync hsome
      | true =>
        simp only [hx, if_true]
        rw [treeLookup_upsert_other _ _ _ _ hk]
        exact hsync hsome

theorem kvWF_del (s : KVState) (k : String) (h : KVWF s) :
    KVWF (deleteItem s k) := by
  obtain ⟨hsort, hkeys, hmap⟩ := h
  unfold deleteItem
  cases hv : mapLookup s.kval k with
  | none =>
    refine ⟨hsort, hkeys, ?_⟩
    intro k' it' hl
    simp only at hl
    by_cases hk : k' = k
    · subst hk
      rw [mapRemove_lookup_self] at hl
      cases hl
    · rw [mapRemove_lookup_other _ _ _ hk] at hl
      exact hmap k' it' hl
  | some val =>
    obtain ⟨hvkey, _⟩ := hmap k val hv
    refine ⟨?_, ?_, ?_⟩
    · cases hx : val.expiresAt.isSome with
      | true => simpa [hx] using treeDelete_sorted _ _ hsort
      | false => simpa [hx] using hsort
    · cases hx : val.expiresAt.isSome with
      | false => simpa [hx] using hkeys
      | true =>
        simp only [hx, if_true]
        intro e he
        exact hkeys e ((treeDelete_sublist _ _).subset he)
    · intro k' it' hl
      simp only at hl
      by_cases hk : k' = k
      · subst hk
        rw [mapRemove_lookup_self] at hl
        cases hl
      · rw [mapRemove_lookup_other _ _ _ hk] at hl
        obtain ⟨hkey, hsync⟩ := hmap k' it' hl
        refine ⟨hkey, fun hsome => ?_⟩
        cases hx : val.expiresAt.isSome with
        | false => simpa [hx] using hsync hsome
        | true =>
          simp only [hx, if_true]
          rw [hvkey, treeDelete_lookup_other _ _ _ hk]
          exact hsync hsome

theorem kvReach_wf (s : KVState) (h : KVReach s) : KVWF s := by
  induction h with
  | newStore => exact kvWF_new
  | set s it _ ih => exact kvWF_set s it ih
  | del s k _ ih => exact kvWF_del s k ih

/-! ## Sweep lemmas -/

theorem countKey_append (a b : List Item) (k : String) :
    countKey (a ++ b) k = countKey a k + countKey b k := by
  simp [countKey, List.filter_append]

theorem countKey_cons (x : Item) (l : List Item) (k : String) :
    countKey (x :: l) k = (if x.key = k then 1 else 0) + countKey l k := by
  by_cases h : x.key = k
  · simp [countKey, List.filter_cons, h, Nat.add_comm]
  · simp [countKey, List.filter_cons, h]

theorem countKey_sweepFiredT_zero (t : List (String × Item)) (now : Nat)
    (k : String) (h : ∀ e ∈ t, e.2.key ≠ k) :
    countKey (sweepFiredT t now) k = 0 := by
  induction t with
  | nil => rfl
  | cons e rest ih =>
    have hk := h e (List.mem_cons_self _ _)
    have hrest := ih (fun e' he' => h e' (List.mem_cons.mpr (Or.inr he')))
    cases hx : expiredTest now e.2 with
    | true =>
      simp [sweepFiredT, List.filter_cons, hx, countKey_cons, hk]
      simpa [sweepFiredT] using hrest
    | false =>
      simp only [sweepFiredT, List.filter_cons, hx, Bool.false_eq_true,
        if_false]
      simpa [sweepFiredT] using hrest

theorem countKey_sweepFiredT (t : List (String × Item)) (now : Nat)
    (k : String) (it : Item) (hs : TreeSorted t)
    (hk : ∀ e ∈ t, e.2.key = e.1) (hl : mapLookup t k = some it) :
    countKey (sweepFiredT t now) k
      = if expiredTest now it = true then 1 else 0 := by
  induction t with
  | nil => simp [mapLookup] at hl
  | cons p rest ih =>
    obtain ⟨k₀, v₀⟩ := p
    rw [TreeSorted, List.pairwise_cons] at hs
    obtain ⟨hall, hrest⟩ := hs
    have hk₀ : v₀.key = k₀ := hk _ (List.mem_cons_self _ _)
    have hkrest : ∀ e ∈ rest, e.2.key = e.1 :=
      fun e he => hk e (List.mem_cons.mpr (Or.inr he))
    by_cases h0 : k₀ = k
    · subst h0
      have hv : v₀ = it := by simpa [mapLookup] using hl
      subst hv
      have hzero : countKey (sweepFiredT rest now) k₀ = 0 := by
        refine countKey_sweepFiredT_zero rest now k₀ (fun e he => ?_)
        rw [hkrest e he]
        exact Ne.symm (strLt_ne _ _ (hall e he))
      cases hx : expiredTest now v₀ with
      | true =>
        simp [sweepFiredT, List.filter_cons, hx, countKey_cons, hk₀]
        simpa [sweepFiredT] using hzero
      | false =>
        simp only [sweepFiredT, List.filter_cons, hx, Bool.false_eq_true,
          if_false]
        simpa [sweepFiredT] using hzero
    · have hl' : mapLookup rest k = some it := by
        simpa [mapLookup, h0] using hl
      have hr := ih hrest hkrest hl'
      cases hx : expiredTest now v₀ with
      | true =>
        rw [show sweepFiredT ((k₀, v₀) :: rest) now
          = v₀ :: sweepFiredT rest now by simp [sweepFiredT, List.filter_cons, hx]]
        rw [countKey_cons, hk₀, if_neg h0, hr, Nat.zero_add]
      | false =>
        rw [show sweepFiredT ((k₀, v₀) :: rest) now
          = sweepFiredT rest now by simp [sweepFiredT, List.filter_cons, hx]]
        exact hr

theorem sweepFiredT_mem (t : List (String × Item)) (now : Nat) (x : Item) :
    x ∈ sweepFiredT t now
      ↔ ∃ e, e ∈ t ∧ expiredTest now e.2 = true ∧ e.2 = x := by
  simp only [sweepFiredT, List.mem_map, List.mem_filter]
  constructor
  · rintro ⟨e, ⟨he, hx⟩, rfl⟩
    exact ⟨e, he, hx, rfl⟩
  · rintro ⟨e, he, hx, rfl⟩
    exact ⟨e, ⟨he, hx⟩, rfl⟩

theorem sweepPendingT_mem (t : List (String × Item)) (now : Nat)
    (k : String) :
    k ∈ sweepPendingT t now
      ↔ ∃ e, e ∈ t ∧ expiredTest now e.2 = true ∧ e.2.key = k := by
  simp only [sweepPendingT, List.mem_map, List.mem_filter]
  constructor
  · rintro ⟨e, ⟨he, hx⟩, rfl⟩
    exact ⟨e, he, hx, rfl⟩
  · rintro ⟨e, he, hx, rfl⟩
    exact ⟨e, ⟨he, hx⟩, rfl⟩

/-! ## List-engine lemmas -/

theorem lgetStep_found (s : LSState) (k : String) :
    (lgetStep s k).2 = (mapLookup s.ktree k).isSome := by
  unfold lgetStep
  cases mapLookup s.ktree k <;> rfl

theorem lsApply_lookup_key (s : LSState) (e : LEvent) :
    (mapLookup (lsApply s e).ktree e.lkey).isSome = true := by
  cases e with
  | push k it =>
    simp only [lsApply, LEvent.lkey]
    cases hm : mapLookup s.ktree k with
    | some t => simp [lpushStep, hm, mapLookup_insert_self]
    | none => simp [lpushStep, hm, mapLookup_insert_self]
  | del k it =>
    simp only [lsApply, LEvent.lkey]
    cases hm : mapLookup s.ktree k with
    | some t => simp [ldelStep, hm, mapLookup_insert_self]
    | none => simp [ldelStep, hm, mapLookup_insert_self]

theorem lsApply_lookup_other (s : LSState) (e : LEvent) (k' : String)
    (h : k' ≠ e.lkey) :
    mapLookup (lsApply s e).ktree k' = mapLookup s.ktree k' := by
  cases e with
  | push k it =>
    simp only [LEvent.lkey] at h
    simp only [lsApply]
    cases hm : mapLookup s.ktree k with
    | some t => simp [lpushStep, hm, mapLookup_insert_other _ _ _ _ h]
    | none => simp [lpushStep, hm, mapLookup_insert_other _ _ _ _ h]
  | del k it =>
    simp only [LEvent.lkey] at h
    simp only [lsApply]
    cases hm : mapLookup s.ktree k with
    | some t => simp [ldelStep, hm, mapLookup_insert_other _ _ _ _ h]
    | none => simp [ldelStep, hm, mapLookup_insert_other _ _ _ _ h]

theorem lsWF_new : LSWF newListStore := by
  intro k t hl
  simp [newListStore, mapLookup] at hl

theorem lsWF_apply (s : LSState) (e : LEvent) (h : LSWF s) :
    LSWF (lsApply s e) := by
  have emptyWF : TreeSorted ([] : List (String × Item)) := by
    simp [TreeSorted]
  cases e with
  | push k it =>
    intro k' t' hl
    simp only [lsApply] at hl
    cases hm : mapLookup s.ktree k with
    | some t =>
      simp only [lpushStep, hm] at hl
      by_cases hk : k' = k
      · subst hk
        rw [mapLookup_insert_self] at hl
        injection hl with hl
        subst hl
        obtain ⟨hsort, hids⟩ := h k' t hm
        refine ⟨treeUpsert_sorted _ _ _ hsort, ?_⟩
        intro e he
        rcases treeUpsert_mem _ _ _ e he with h' | h'
        · subst h'
          rfl
        · exact hids e h'
      · rw [mapLookup_insert_other _ _ _ _ hk] at hl
        exact h k' t' hl
    | none =>
      simp only [lpushStep, hm] at hl
      by_cases hk : k' = k
      · subst hk
        rw [mapLookup_insert_self] at hl
        injection hl with hl
        subst hl
        refine ⟨treeUpsert_sorted _ _ _ emptyWF, ?_⟩
        intro e he
        rcases treeUpsert_mem _ _ _ e he with h' | h'
        · subst h'
          rfl
        · simp at h'
      · rw [mapLookup_insert_other _ _ _ _ hk,
          mapLookup_insert_other _ _ _ _ hk] at hl
        exact h k' t' hl
  | del k it =>
    intro k' t' hl
    simp only [lsApply] at hl
    cases hm : mapLookup s.ktree k with
    | some t =>
      simp only [ldelStep, hm] at hl
      by_cases hk : k' = k
      · subst hk
        rw [mapLookup_insert_self] at hl
        injection hl with hl
        subst hl
        obtain ⟨hsort, hids⟩ := h k' t hm
        refine ⟨treeDelete_sorted _ _ hsort, ?_⟩
        intro e he
        exact hids e ((treeDelete_sublist _ _).subset he)
      · rw [mapLookup_insert_other _ _ _ _ hk] at hl
        exact h k' t' hl
    | none =>
      simp only [ldelStep, hm] at hl
      by_cases hk : k' = k
      · subst hk
        rw [mapLookup_insert_self] at hl
        injection hl with hl
        subst hl
        exact ⟨emptyWF, by simp [treeDelete]⟩
      · rw [mapLookup_insert_other _ _ _ _ hk,
          mapLookup_insert_other _ _ _ _ hk] at hl
        exact h k' t' hl

theorem lsFold_wf (s : LSState) (evts : List LEvent) (h : LSWF s) :
    LSWF (evts.foldl lsApply s) := by
  induction evts generalizing s with
  | nil => exact h
  | cons e rest ih => exact ih _ (lsWF_apply s e h)

theorem lsRun_wf (evts : List LEvent) : LSWF (lsRun evts) :=
  lsFold_wf _ _ lsWF_new

theorem lsFold_found (s : LSState) (evts : List LEvent) (k : String) :
    (mapLookup (evts.foldl lsApply s).ktree k).isSome = true
      ↔ (mapLookup s.ktree k).isSome = true
        ∨ ∃ e ∈ evts, LEvent.lkey e = k := by
  induction evts generalizing s with
  | nil => simp [List.foldl_nil]
  | cons e rest ih =>
    rw [List.foldl_cons, ih]
    constructor
    · rintro (h | ⟨e', he', hk⟩)
      · by_cases hk : k = e.lkey
        · exact Or.inr ⟨e, List.mem_cons_self _ _, hk.symm⟩
        · rw [lsApply_lookup_other s e k hk] at h
          exact Or.inl h
      · exact Or.inr ⟨e', List.mem_cons.mpr (Or.inr he'), hk⟩
    · rintro (h | ⟨e', he', hk⟩)
      · by_cases hk : k = e.lkey
        · rw [hk]
          exact Or.inl (lsApply_lookup_key s e)
        · rw [lsApply_lookup_other s e k hk]
          exact Or.inl h
      · rcases List.mem_cons.mp he' with he | he
        · subst he
          rw [← hk]
          exact Or.inl (lsApply_lookup_key s e')
        · exact Or.inr ⟨e', he, hk⟩

theorem treeAscend_ids (t : List (String × Item))
    (h : ∀ e ∈ t, e.2.id = e.1) :
    (treeAscend t).map Item.id = t.map Prod.fst := by
  induction t with
  | nil => rfl
  | cons e rest ih =>
    simp only [treeAscend, List.map_cons] at ih ⊢
    rw [h e (List.mem_cons_self _ _)]
    congr 1
    exact ih (fun e' he' => h e' (List.mem_cons.mpr (Or.inr he')))

/-! ## The claims -/

/-- C1: the claim says every membership- or content-changing `ListPush`
and every entry-removing `ListDel` invokes the registered
`onListDidChange` callback exactly once.  The code's `lpush` and `ldel`
handlers never call `listChangeCb` at all: a first push of item `"a"`
to list `"one"` changes the list observably yet emits zero
notifications, and the delete that removes that entry again emits zero
notifications.  (The repository's own tests assert the callback fires,
so this is a code bug, not a spec slip.) -/
theorem claim1_listChange_callback_never_fires :
    (lpushStep newListStore "one" itemA).2 = []
    ∧ lgetStep (lpushStep newListStore "one" itemA).1 "one"
        ≠ lgetStep newListStore "one"
    ∧ (ldelStep (lpushStep newListStore "one" itemA).1 "one" itemA).2 = []
    ∧ lgetStep
        (ldelStep (lpushStep newListStore "one" itemA).1 "one" itemA).1 "one"
        ≠ lgetStep (lpushStep newListStore "one" itemA).1 "one" := by
  refine ⟨rfl, ?_, rfl, ?_⟩ <;> decide

/-- C2, counterexample: a put with an expiry followed by a put of the
same key with no expiry leaves the old expiry-index entry stale: the
current scalar entry (`itemNoExp`) has no expiry set, yet the index
still holds the old item, and the next sweep at the old expiry time
reports the key expired — refuting both halves of the claimed
invariant.  The final state is reachable. -/
theorem claim2_expiry_index_stale_counterexample :
    getItem (setStep (setStep newKVStore itemOld) itemNoExp) "k"
        = some itemNoExp
    ∧ itemNoExp.expiresAt = none
    ∧ mapLookup (setStep (setStep newKVStore itemOld) itemNoExp).forExpiry "k"
        = some itemOld
    ∧ sweepFired (setStep (setStep newKVStore itemOld) itemNoExp)
        (10 * nsPerSec) = [itemOld]
    ∧ KVReach (setStep (setStep newKVStore itemOld) itemNoExp) := by
  refine ⟨by decide, rfl, by decide, by decide, ?_⟩
  exact KVReach.set _ _ (KVReach.set _ _ KVReach.newStore)

/-- C2, amended: in every reachable scalar-engine state, if the current
entry for a key has an expiry set then the expiry index holds exactly
that entry for the key, and a key whose current entry's expiry is not
yet reached (at the sweep's second granularity) is never reported
expired — so a reset via a new put *with an expiry set* works as
claimed; only a reset to an absent expiry leaves the stale index entry
shown in the counterexample. -/
theorem claim2_expiry_index_sync_amended (s : KVState) (h : KVReach s) :
    (∀ k it, getItem s k = some it → it.expiresAt.isSome = true →
      mapLookup s.forExpiry k = some it)
    ∧ (∀ k it e now, getItem s k = some it → it.expiresAt = some e →
        expiredTest now it = false → ∀ x ∈ sweepFired s now, x.key ≠ k) := by
  obtain ⟨hsort, hkeys, hmap⟩ := kvReach_wf s h
  constructor
  · intro k it hg hs
    exact (hmap k it hg).2 hs
  · intro k it e now hg he hexp x hx hxk
    rcases (sweepFiredT_mem s.forExpiry now x).mp hx with ⟨en, hen, hexp', hx2⟩
    have h1 : en.1 = k := by rw [← hkeys en hen, hx2, hxk]
    have h2 := mem_mapLookup_sorted _ hsort en hen
    rw [h1] at h2
    have h3 := (hmap k it hg).2 (by rw [he]; rfl)
    rw [h3] at h2
    injection h2 with h2
    rw [← h2] at hexp'
    rw [hexp'] at hexp
    cases hexp

/-- C2, witness: the amended sync invariant evaluated on the reachable
state holding one expiring entry for key `"k"`. -/
theorem claim2_expiry_index_sync_witness :
    mapLookup (setStep newKVStore itemOld).forExpiry "k" = some itemOld :=
  (claim2_expiry_index_sync_amended (setStep newKVStore itemOld)
    (KVReach.set _ _ KVReach.newStore)).1 "k" itemOld (by decide) (by decide)

/-- C3, counterexample: the post-expiry delete is issued asynchronously
(`go s.delItem(key)`), so when a second sweep tick is processed before
that delete request, `checkExpiredItems` finds the entry still in the
expiry tree and spawns the expire callback again: after
`[set itemExp, tick 2s, tick 2.5s]` the callback has fired twice for
the single expiring entry, refuting "never more than once, even across
multiple sweep ticks occurring before the post-expiry delete is
processed". -/
theorem claim3_expire_callback_twice_counterexample :
    (sysRun sysInit
      [KVEvent.set itemExp, KVEvent.tick (2 * nsPerSec),
       KVEvent.tick (2 * nsPerSec + 500000000)]).fired = [itemExp, itemExp]
    ∧ countKey (sysRun sysInit
      [KVEvent.set itemExp, KVEvent.tick (2 * nsPerSec),
       KVEvent.tick (2 * nsPerSec + 500000000)]).fired "k" = 2 := by
  exact ⟨by decide, by decide⟩

/-- C3, amended: for an expiring entry the callback fires exactly once
provided the post-expiry delete is processed before the next sweep
tick: starting from a state whose expiry index is in sync with the
scalar map, a sweep that expires key `k`, followed by the pending
delete for `k`, followed by another sweep, produces exactly one
callback invocation carrying key `k` (never zero, and the later sweep
adds none). -/
theorem claim3_expire_callback_once_amended (s₀ : KVSys) (k : String)
    (it : Item) (now now' : Nat)
    (hsort : TreeSorted s₀.kv.forExpiry)
    (hkeys : ∀ e ∈ s₀.kv.forExpiry, e.2.key = e.1)
    (hsync : ∀ e ∈ s₀.kv.forExpiry,
      mapLookup s₀.kv.kval e.1 = some e.2 ∧ e.2.expiresAt.isSome = true)
    (hit : mapLookup s₀.kv.forExpiry k = some it)
    (hexp : expiredTest now it = true)
    (hfired : countKey s₀.fired k = 0) :
    countKey (sysRun s₀
      [KVEvent.tick now, KVEvent.procDel k, KVEvent.tick now']).fired k
      = 1 := by
  have hmem : (k, it) ∈ s₀.kv.forExpiry := mapLookup_mem _ _ _ hit
  have hitkey : it.key = k := hkeys (k, it) hmem
  obtain ⟨hkv, hsomeexp⟩ := hsync (k, it) hmem
  have hpend : k ∈ s₀.pending ++ sweepPending s₀.kv now := by
    apply List.mem_append.mpr
    right
    exact (sweepPendingT_mem _ _ _).mpr ⟨(k, it), hmem, hexp, hitkey⟩
  have hdel : deleteItem s₀.kv k =
      { kval := mapRemove s₀.kv.kval k,
        forExpiry := treeDelete s₀.kv.forExpiry k } := by
    unfold deleteItem
    rw [hkv]
    simp [hsomeexp, hitkey]
  have h2 : sysStep (sysStep s₀ (KVEvent.tick now)) (KVEvent.procDel k)
      = ⟨deleteItem s₀.kv k, (s₀.pending ++ sweepPending s₀.kv now).erase k,
         s₀.fired ++ sweepFired s₀.kv now⟩ := by
    show (if k ∈ s₀.pending ++ sweepPending s₀.kv now then _ else _) = _
    rw [if_pos hpend]
    rfl
  simp only [sysRun, List.foldl_cons, List.foldl_nil]
  rw [h2]
  show countKey ((s₀.fired ++ sweepFired s₀.kv now)
      ++ sweepFired (deleteItem s₀.kv k) now') k = 1
  rw [countKey_append, countKey_append, hfired]
  have hone : countKey (sweepFired s₀.kv now) k = 1 := by
    rw [sweepFired, countKey_sweepFiredT _ _ _ it hsort hkeys hit,
      if_pos hexp]
  have hzero : countKey (sweepFired (deleteItem s₀.kv k) now') k = 0 := by
    rw [hdel, sweepFired]
    refine countKey_sweepFiredT_zero _ _ _ (fun e he => ?_)
    have hesub : e ∈ s₀.kv.forExpiry := (treeDelete_sublist _ _).subset he
    rw [hkeys e hesub]
    intro hek
    have hms := mem_mapLookup_sorted _ (treeDelete_sorted _ _ hsort) e he
    rw [hek, treeDelete_lookup_self _ _ hsort] at hms
    cases hms
  rw [hone, hzero]

/-- C3, witness: the amended exactly-once property on the engine
holding one entry for `"k"` expiring at second 2, with the delete
processed between the sweeps at seconds 2 and 3. -/
theorem claim3_expire_callback_once_witness :
    countKey (sysRun ⟨setStep newKVStore itemExp, [], []⟩
      [KVEvent.tick (2 * nsPerSec), KVEvent.procDel "k",
       KVEvent.tick (3 * nsPerSec)]).fired "k" = 1 :=
  claim3_expire_callback_once_amended ⟨setStep newKVStore itemExp, [], []⟩
    "k" itemExp (2 * nsPerSec) (3 * nsPerSec)
    (by decide) (by decide) (by decide) (by decide) (by decide) (by decide)

/-- C4, counterexample: the sweep compares `now.Unix() -
expiresAt.Unix()`, i.e. whole seconds.  An entry expiring at 10.95 s is
reported expired (callback spawned and delete issued) by a sweep at
10.9 s, although its expiry still lies in the future — refuting "every
entry whose expiresAt is still in the future is left untouched (not
removed, not reported)" under the claim's real-time reading
(`expiredRealtime`). -/
theorem claim4_subsecond_expiry_counterexample :
    expiredRealtime nowSubSec itemSubSec = false
    ∧ sweepFired (setStep newKVStore itemSubSec) nowSubSec = [itemSubSec]
    ∧ sweepPending (setStep newKVStore itemSubSec) nowSubSec = ["k"] := by
  exact ⟨by decide, by decide, by decide⟩

/-- C4, amended: a sweep treats an entry as expired exactly when
`now.Unix() - expiresAt.Unix() >= 0`, i.e. at whole-second granularity
(`expiredTest`): an indexed entry is reported (callback spawned, async
delete issued) iff that test holds, an entry failing the test is
neither reported nor scheduled for deletion, and the sweep itself
leaves the engine state untouched (its deletes run later). -/
theorem claim4_sweep_second_granularity (s : KVState) (now : Nat)
    (hsort : TreeSorted s.forExpiry)
    (hkeys : ∀ e ∈ s.forExpiry, e.2.key = e.1) :
    (∀ e ∈ s.forExpiry,
      (e.2 ∈ sweepFired s now ↔ expiredTest now e.2 = true)
      ∧ (expiredTest now e.2 = false →
          e.2 ∉ sweepFired s now ∧ e.1 ∉ sweepPending s now))
    ∧ ∀ p f, (sysStep ⟨s, p, f⟩ (KVEvent.tick now)).kv = s := by
  constructor
  · intro e he
    have hmemiff : e.2 ∈ sweepFired s now ↔ expiredTest now e.2 = true := by
      constructor
      · intro hx
        rcases (sweepFiredT_mem s.forExpiry now e.2).mp hx
          with ⟨e', he', hexp', hval⟩
        have h1 : e'.1 = e.1 := by
          rw [← hkeys e' he', hval, hkeys e he]
        have h2 := tree_mem_unique _ hsort e' e he' he h1
        rw [← h2]
        exact hexp'
      · intro hx
        exact (sweepFiredT_mem s.forExpiry now e.2).mpr ⟨e, he, hx, rfl⟩
    refine ⟨hmemiff, fun hx => ⟨?_, ?_⟩⟩
    · intro hmem
      rw [hmemiff.mp hmem] at hx
      cases hx
    · intro hmem
      rcases (sweepPendingT_mem s.forExpiry now e.1).mp hmem
        with ⟨e', he', hexp', hkey⟩
      have h1 : e'.1 = e.1 := by rw [← hkeys e' he', hkey]
      have h2 := tree_mem_unique _ hsort e' e he' he h1
      rw [h2] at hexp'
      rw [hexp'] at hx
      cases hx
  · intro p f
    rfl

/-- C4, witness: the amended sweep characterization evaluated on a
state holding one entry for `"k"` expiring at second 10, swept at time
0: the entry is neither reported nor scheduled. -/
theorem claim4_sweep_second_granularity_witness :
    itemOld ∉ sweepFired (setStep newKVStore itemOld) 0
    ∧ "k" ∉ sweepPending (setStep newKVStore itemOld) 0 :=
  ((claim4_sweep_second_granularity (setStep newKVStore itemOld) 0
      (by decide) (by decide)).1 ("k", itemOld) (by decide)).2 (by decide)

/-- C5, counterexample: after `Close`, operations do not return the "not
initialized" error the claim demands: a valid `Put` sends on the closed
`set` channel and panics under either outcome of the race with the kv
worker's exit, and a `Del` either gets served by the not-yet-exited
worker (success, with the key actually deleted) or times out — in no
schedule is "not initialized" returned. -/
theorem claim5_after_close_counterexample :
    (applyOp closedStore (StoreOp.put "1" "k" "v" 0) 0 true).1
        = Outcome.panicked
    ∧ (applyOp closedStore (StoreOp.put "1" "k" "v" 0) 0 false).1
        = Outcome.panicked
    ∧ (applyOp closedStore (StoreOp.del "k") 0 true).1 = Outcome.ok
    ∧ (applyOp closedStore (StoreOp.del "k") 0 false).1 = Outcome.errTimeout
    ∧ Outcome.panicked ≠ Outcome.errNotInit
    ∧ Outcome.ok ≠ Outcome.errNotInit
    ∧ Outcome.errTimeout ≠ Outcome.errNotInit := by
  exact ⟨by decide, by decide, by decide, by decide, by decide, by decide,
    by decide⟩

/-- C5, amended: before `init`, every data operation returns the "not
initialized" error and performs no mutation.  After `close`, no
operation returns the "not initialized" error under any schedule: a
valid `Put` panics on the closed channel, the list operations time out
(the list worker's exit is synchronized by `Close`'s blocking send),
a `Get` or `Del` is either served normally by the kv worker — whose
exit `close(s.set)` does not await, so a served `Del` mutates state and
succeeds — or times out, and invalid arguments draw validation
errors. -/
theorem claim5_lifecycle_guard_amended (st : StoreState) (op : StoreOp)
    (now : Nat) (b : Bool) :
    (st.life = Lifecycle.uninit →
      applyOp st op now b = (Outcome.errNotInit, st))
    ∧ (st.life = Lifecycle.closed →
        (applyOp st op now b).1 ≠ Outcome.errNotInit) := by
  obtain ⟨l, kv, ls⟩ := st
  constructor
  · intro h
    replace h : l = Lifecycle.uninit := h
    subst h
    cases op <;> rfl
  · intro h
    replace h : l = Lifecycle.closed := h
    subst h
    cases op with
    | put id key v d =>
      by_cases hv : key.length = 0 ∨ id.length = 0
      · simp [applyOp, hv]
      · simp [applyOp, hv]
    | get k => cases b <;> simp [applyOp]
    | del k =>
      by_cases hv : k.length = 0
      · simp [applyOp, hv]
      · cases b <;> simp [applyOp, hv]
    | listPush k id v =>
      by_cases hv : k.length = 0 ∨ id.length = 0
      · simp [applyOp, hv]
      · simp [applyOp, hv]
    | listDel k id v =>
      by_cases hv : k.length = 0 ∨ id.length = 0
      · simp [applyOp, hv]
      · simp [applyOp, hv]
    | listGet k => simp [applyOp]

/-- C5, witness: the amended lifecycle guard evaluated at a `Get` on an
uninitialized store, and on a closed store under both outcomes of the
race with the kv worker's exit. -/
theorem claim5_lifecycle_guard_witness :
    applyOp uninitStore (StoreOp.get "k") 0 true
        = (Outcome.errNotInit, uninitStore)
    ∧ (applyOp closedStore (StoreOp.get "k") 0 true).1 ≠ Outcome.errNotInit
    ∧ (applyOp closedStore (StoreOp.get "k") 0 false).1 ≠ Outcome.errNotInit :=
  ⟨(claim5_lifecycle_guard_amended uninitStore (StoreOp.get "k") 0 true).1 rfl,
   (claim5_lifecycle_guard_amended closedStore (StoreOp.get "k") 0 true).2 rfl,
   (claim5_lifecycle_guard_amended closedStore (StoreOp.get "k") 0 false).2
     rfl⟩

/-- C6: on an initialized store, for every non-empty key and non-empty
id, `put` succeeds and an immediately following `get` of that key finds
an item with the same id and value — for any prior engine state, any
ttl and any current time. -/
theorem claim6_put_then_get (s : KVState) (id k : String) (v : Value)
    (d : Int) (now : Nat) (hk : k.length ≠ 0) (hid : id.length ≠ 0) :
    ∃ s' it, put s id k v d now = Except.ok s'
      ∧ getItem s' k = some it ∧ it.id = id ∧ it.value = v := by
  have hval : ¬ (k.length = 0 ∨ id.length = 0) := by
    push_neg
    exact ⟨hk, hid⟩
  refine ⟨setStep s ⟨id, k, v, if 0 < d then some (now + d.toNat) else none⟩,
    ⟨id, k, v, if 0 < d then some (now + d.toNat) else none⟩, ?_, ?_, rfl,
    rfl⟩
  · unfold put
    rw [if_neg hval]
  · exact mapLookup_insert_self _ _ _

/-- C6, witness: put of `{id: "1", key: "k1", value: "hello"}` with no
ttl into the fresh store, then get. -/
theorem claim6_put_then_get_witness :
    ∃ s' it, put newKVStore "1" "k1" "hello" 0 0 = Except.ok s'
      ∧ getItem s' "k1" = some it ∧ it.id = "1" ∧ it.value = "hello" :=
  claim6_put_then_get newKVStore "1" "k1" "hello" 0 0 (by decide) (by decide)

/-- C7: after any sequence of list operations, the ids of any list's
members as returned by `listGet` are strictly ascending (hence unique),
and pushing an item whose id already exists in the list leaves the id
sequence unchanged (the entry is replaced in place at the same sort
position) with the new item stored. -/
theorem claim7_list_ids_sorted_unique_replace (evts : List LEvent)
    (k : String) (it : Item) :
    (((lgetStep (lsRun evts) k).1.map Item.id).Pairwise
        (fun a b => strLt a b = true))
    ∧ ((lgetStep (lsRun evts) k).1.map Item.id).Nodup
    ∧ (it.id ∈ (lgetStep (lsRun evts) k).1.map Item.id →
        ((lgetStep (lsApply (lsRun evts) (LEvent.push k it)) k).1.map Item.id
            = (lgetStep (lsRun evts) k).1.map Item.id)
        ∧ it ∈ (lgetStep (lsApply (lsRun evts) (LEvent.push k it)) k).1) := by
  have hWF := lsRun_wf evts
  cases hm : mapLookup (lsRun evts).ktree k with
  | none =>
    refine ⟨?_, ?_, ?_⟩
    · simp [lgetStep, hm]
    · simp [lgetStep, hm]
    · intro hmem
      simp [lgetStep, hm] at hmem
  | some t =>
    obtain ⟨hsort, hids⟩ := hWF k t hm
    have hget : lgetStep (lsRun evts) k = (treeAscend t, true) := by
      simp [lgetStep, hm]
    have hidskeys : (treeAscend t).map Item.id = t.map Prod.fst :=
      treeAscend_ids t hids
    have hpw : (t.map Prod.fst).Pairwise (fun a b => strLt a b = true) := by
      rw [List.pairwise_map]
      exact hsort
    refine ⟨?_, ?_, ?_⟩
    · rw [hget]
      simp only
      rw [hidskeys]
      exact hpw
    · rw [hget]
      simp only
      rw [hidskeys]
      exact hpw.imp (fun h => strLt_ne _ _ h)
    · intro hmem
      rw [hget] at hmem
      simp only at hmem
      rw [hidskeys] at hmem
      have hlk : mapLookup t it.id ≠ none := by
        intro hn
        rcases List.mem_map.mp hmem with ⟨e, he, hei⟩
        exact ((mapLookup_none_iff t it.id).mp hn e he) hei
      have hpush : lsApply (lsRun evts) (LEvent.push k it)
          = ⟨mapInsert (lsRun evts).ktree k (treeUpsert t it.id it)⟩ := by
        simp [lsApply, lpushStep, hm]
      have hget2 : lgetStep (lsApply (lsRun evts) (LEvent.push k it)) k
          = (treeAscend (treeUpsert t it.id it), true) := by
        rw [hpush]
        simp [lgetStep, mapLookup_insert_self]
      have hidsup : ∀ e ∈ treeUpsert t it.id it, e.2.id = e.1 := by
        intro e he
        rcases treeUpsert_mem _ _ _ e he with h' | h'
        · subst h'
          rfl
        · exact hids e h'
      constructor
      · rw [hget2, hget]
        simp only
        rw [treeAscend_ids _ hidsup, hidskeys,
          treeUpsert_keys_of_mem t it.id it hsort hlk]
      · rw [hget2]
        simp only
        have hin : (it.id, it) ∈ treeUpsert t it.id it :=
          mapLookup_mem _ _ _ (treeLookup_upsert_self t it.id it)
        exact List.mem_map.mpr ⟨(it.id, it), hin, rfl⟩

/-- C7, witness: the sorted-unique-replace property on the list built by
pushing items `a` then `b`, then re-pushing id `a` with new content. -/
theorem claim7_list_ids_sorted_unique_replace_witness :
    (((lgetStep (lsRun [LEvent.push "one" itemA, LEvent.push "one" itemB])
        "one").1.map Item.id).Pairwise (fun a b => strLt a b = true))
    ∧ ((lgetStep (lsApply
          (lsRun [LEvent.push "one" itemA, LEvent.push "one" itemB])
          (LEvent.push "one" itemA2)) "one").1.map Item.id
        = (lgetStep (lsRun [LEvent.push "one" itemA, LEvent.push "one" itemB])
            "one").1.map Item.id) :=
  ⟨(claim7_list_ids_sorted_unique_replace
      [LEvent.push "one" itemA, LEvent.push "one" itemB] "one" itemA2).1,
   ((claim7_list_ids_sorted_unique_replace
      [LEvent.push "one" itemA, LEvent.push "one" itemB] "one" itemA2).2.2
      (by decide)).1⟩

/-- C8, counterexample: a `ListDel` addressed to a never-created list
key creates the list (through `getTree`), so after a single delete and
no push ever, `listGet` reports `found = true` with zero items — while
the claim ("created only lazily on the first push") requires
`found = false` here. -/
theorem claim8_ldel_creates_counterexample :
    (∀ e ∈ [LEvent.del "one" itemA], e.isPush = false)
    ∧ lgetStep (lsRun [LEvent.del "one" itemA]) "one" = ([], true) := by
  exact ⟨by decide, by decide⟩

/-- C8, amended: `listGet` returns `found = true` exactly when the list
key has ever been created, where a list is created lazily on the first
push *or list-delete* addressed to that key (a get never creates); for
a never-created key the result is the empty sequence with
`found = false`. -/
theorem claim8_listGet_found_amended (evts : List LEvent) (k : String) :
    ((lgetStep (lsRun evts) k).2 = true ↔ ∃ e ∈ evts, LEvent.lkey e = k)
    ∧ ((lgetStep (lsRun evts) k).2 = false →
        lgetStep (lsRun evts) k = ([], false)) := by
  constructor
  · rw [lgetStep_found]
    rw [lsRun]
    rw [lsFold_found newListStore evts k]
    simp [newListStore, mapLookup]
  · intro h
    cases hm : mapLookup (lsRun evts).ktree k with
    | none => simp [lgetStep, hm]
    | some t =>
      rw [lgetStep_found, hm] at h
      simp at h

/-- C8, witness: the found-iff-touched characterization evaluated on a
one-push history and on the empty history. -/
theorem claim8_listGet_found_witness :
    (lgetStep (lsRun [LEvent.push "one" itemA]) "one").2 = true
    ∧ lgetStep (lsRun []) "two" = ([], false) :=
  ⟨(claim8_listGet_found_amended [LEvent.push "one" itemA] "one").1.mpr
      ⟨LEvent.push "one" itemA, by decide, rfl⟩,
   (claim8_listGet_found_amended [] "two").2 (by decide)⟩

/-- C9, counterexample: `delItem` rejects the empty key with an
"Invalid key" error before anything reaches the worker, refuting
"for every key ... always reports success with no error". -/
theorem claim9_empty_key_error_counterexample :
    delItem newKVStore "" = Except.error "Invalid key" := rfl

/-- C9, amended: for every *non-empty* key, on any reachable engine
state, delete reports success with no error and removes the scalar
entry; when the current entry had an expiry set its expiry-index entry
is removed too; and when the key is absent the call is a no-op on the
state. -/
theorem claim9_delete_amended (s : KVState) (k : String) (h : KVReach s)
    (hk : k.length ≠ 0) :
    delItem s k = Except.ok (deleteItem s k)
    ∧ getItem (deleteItem s k) k = none
    ∧ (∀ it, getItem s k = some it → it.expiresAt.isSome = true →
        mapLookup (deleteItem s k).forExpiry k = none)
    ∧ (getItem s k = none → deleteItem s k = s) := by
  obtain ⟨hsort, hkeys, hmap⟩ := kvReach_wf s h
  refine ⟨?_, ?_, ?_, ?_⟩
  · unfold delItem
    rw [if_neg hk]
  · show mapLookup (deleteItem s k).kval k = none
    unfold deleteItem
    cases hv : mapLookup s.kval k with
    | some val => exact mapRemove_lookup_self _ _
    | none => exact mapRemove_lookup_self _ _
  · intro it hg hsome
    replace hg : mapLookup s.kval k = some it := hg
    have hkey : it.key = k := (hmap k it hg).1
    show mapLookup (deleteItem s k).forExpiry k = none
    unfold deleteItem
    rw [hg]
    simp only [hsome, if_true]
    rw [hkey]
    exact treeDelete_lookup_self _ _ hsort
  · intro hg
    replace hg : mapLookup s.kval k = none := hg
    unfold deleteItem
    rw [hg]
    simp only
    rw [mapRemove_absent _ _ hg]

/-- C9, witness: delete of key `"k"` on a reachable state holding one
expiring entry, and on the fresh store where the key is absent. -/
theorem claim9_delete_amended_witness :
    delItem (setStep newKVStore itemExp) "k"
      = Except.ok (deleteItem (setStep newKVStore itemExp) "k")
    ∧ getItem (deleteItem (setStep newKVStore itemExp) "k") "k" = none :=
  ⟨(claim9_delete_amended (setStep newKVStore itemExp) "k"
      (KVReach.set _ _ KVReach.newStore) (by decide)).1,
   (claim9_delete_amended (setStep newKVStore itemExp) "k"
      (KVReach.set _ _ KVReach.newStore) (by decide)).2.1⟩

/-- C10: a `ListDel` on a list key that was never created is not a pure
no-op on store state: it registers an empty tree for that key (through
`getTree`), so a subsequent `listGet` reports `found = true` with zero
items, where before the delete it reported `found = false`. -/
theorem claim10_listDel_creates_list (s : LSState) (k : String) (it : Item)
    (h : mapLookup s.ktree k = none) :
    mapLookup ((ldelStep s k it).1).ktree k = some []
    ∧ lgetStep (ldelStep s k it).1 k = ([], true)
    ∧ lgetStep s k = ([], false) := by
  have hd : (ldelStep s k it).1
      = ⟨mapInsert (mapInsert s.ktree k []) k (treeDelete [] it.id)⟩ := by
    simp [ldelStep, h]
  refine ⟨?_, ?_, ?_⟩
  · rw [hd]
    exact mapLookup_insert_self _ _ _
  · rw [hd]
    simp [lgetStep, mapLookup_insert_self, treeAscend, treeDelete]
  · simp [lgetStep, h]

/-- C10, witness: the list-creating delete evaluated on the fresh list
store at key `"one"`. -/
theorem claim10_listDel_creates_list_witness :
    lgetStep (ldelStep newListStore "one" itemA).1 "one" = ([], true) :=
  (claim10_listDel_creates_list newListStore "one" itemA (by decide)).2.1

end GoStore
